import Mathlib

/-!
Verification development for the githookkit repository.

The Go sources shell out to git; the git plumbing commands are modelled as an
abstract, finite repository model (`Repo`) and as an abstract bulk-query
backend (`BatchCheck`).  All pure control flow and parsing logic of the Go
functions is translated directly from `git_commands.go` and
`cmd/internal/config/config.go`.
-/

namespace Githookkit

/-! ## Data model: `FileInfo` from git_commands.go -/

/-- File information structure, from `FileInfo` in git_commands.go:
hash, size (Go `int64`, modelled as `Int`) and path. -/
structure FileInfo where
  hash : String
  size : Int
  path : String
deriving Repr, DecidableEq

/-! ## Parsing one `git cat-file --batch-check` response line

The Go code matches each line against the regular expression
`^([a-f0-9]+) (\d+) (blob|tree)(?: (.+))?$` (`regexp.MustCompile` in
`processObjectBatch`).  Because the three leading groups cannot contain a
space, a line matches exactly when it decomposes as
`hex+ ' ' digit+ ' ' (blob|tree)` followed by nothing, or by a space and a
non-empty remainder (the path group, which the dot of `.+` forbids from
containing a newline).  `Regexp.FindStringSubmatch` always returns all five
submatches on a match, with the absent optional group reported as the empty
string, so the Go guards `len(matches) >= 4` / `len(matches) == 5` are both
equivalent to the line having matched and the parsed path is `""` when the
optional group is absent. -/

/-- Character class `[a-f0-9]` of the batch-check pattern. -/
def isHexLower (c : Char) : Bool :=
  c.isDigit || ('a' ≤ c && c ≤ 'f')

/-- Decimal value of a digit string, as read left to right. -/
def digitsVal (ds : List Char) : Nat :=
  ds.foldl (fun acc c => acc * 10 + (c.toNat - 48)) 0

/-- Largest Go `int64` value. -/
def int64Max : Int := 9223372036854775807

/-- `strconv.ParseInt(s, 10, 64)` on an all-digit string, with the error
ignored as in `processObjectBatch`: on overflow Go returns the clamped
maximum `int64` together with an error, and the error is discarded. -/
def parseIntClamp (ds : List Char) : Int :=
  if (digitsVal ds : Int) ≤ int64Max then (digitsVal ds : Int) else int64Max

/-- Match one response line against the batch-check pattern, returning
`(hash, size, objType, path)` exactly as `processObjectBatch` extracts the
submatches (path `""` when the optional group is absent). -/
def parseBatchLine (line : String) : Option (String × Int × String × String) :=
  let cs := line.data
  let hex := cs.takeWhile isHexLower
  match hex, cs.dropWhile isHexLower with
  | [], _ => none
  | _ :: _, ' ' :: r2 =>
    let ds := r2.takeWhile Char.isDigit
    match ds, r2.dropWhile Char.isDigit with
    | [], _ => none
    | _ :: _, ' ' :: r4 =>
      if r4.take 4 = "blob".data ∨ r4.take 4 = "tree".data then
        match r4.drop 4 with
        | [] => some (hex.asString, parseIntClamp ds, (r4.take 4).asString, "")
        | ' ' :: p =>
          if p.isEmpty || p.contains '\n' then none
          else some (hex.asString, parseIntClamp ds, (r4.take 4).asString, p.asString)
        | _ => none
      else none
    | _, _ => none
  | _, _ => none

/-! ## The batch detail resolver -/

/-- Abstract backend for one invocation of
`git cat-file --batch-check=%(objectname) %(objectsize) %(objecttype) %(rest)`
on a batch of identifiers: the response lines of `CombinedOutput`, or `none`
when the command fails (`err != nil`), in which case `processObjectBatch`
returns without emitting anything. -/
abbrev BatchCheck : Type := List String → Option (List String)

/-- The Go guard `sizeFilter == nil || sizeFilter(size)`. -/
def sizeFilterHolds (sizeFilter : Option (Int → Bool)) (size : Int) : Bool :=
  match sizeFilter with
  | none => true
  | some f => f size

/-- Per-line emission step of `processObjectBatch`: parse the line and emit a
`FileInfo` exactly when the type is `"blob"`, the path is non-empty and the
optional size filter accepts the size. -/
def emitLine (sizeFilter : Option (Int → Bool)) (line : String) : Option FileInfo :=
  match parseBatchLine line with
  | none => none
  | some (hash, size, objType, path) =>
    if objType = "blob" ∧ path ≠ "" ∧ sizeFilterHolds sizeFilter size = true then
      some { hash := hash, size := size, path := path }
    else
      none

/-- `processObjectBatch` from git_commands.go: return immediately on an empty
batch, drop the whole batch when the bulk query fails, otherwise scan the
response lines and emit the matching blob records in line order (the channel
sends are modelled as the returned list). -/
def processObjectBatch (bc : BatchCheck) (objects : List String)
    (sizeFilter : Option (Int → Bool)) : List FileInfo :=
  if objects.isEmpty then []
  else
    match bc objects with
    | none => []
    | some lines => lines.filterMap (emitLine sizeFilter)

/-- Grouping loop of `GetObjectDetails`: accumulate identifiers into `batch`,
process it whenever `len(batch) >= batchSize`, and flush a final non-empty
partial batch when the input ends. -/
def getObjectDetailsAux (bc : BatchCheck) (sizeFilter : Option (Int → Bool))
    (batchSize : Nat) : List String → List String → List FileInfo
  | batch, [] => if batch.isEmpty then [] else processObjectBatch bc batch sizeFilter
  | batch, line :: rest =>
    let batch' := batch ++ [line]
    if batchSize ≤ batch'.length then
      processObjectBatch bc batch' sizeFilter ++
        getObjectDetailsAux bc sizeFilter batchSize [] rest
    else
      getObjectDetailsAux bc sizeFilter batchSize batch' rest

/-- `GetObjectDetails` with an explicit group size (the source fixes
`const batchSize = 1000`); the input channel is modelled as the list of
received lines and the result channel as the returned list. -/
def getObjectDetailsWith (batchSize : Nat) (bc : BatchCheck) (input : List String)
    (sizeFilter : Option (Int → Bool)) : List FileInfo :=
  getObjectDetailsAux bc sizeFilter batchSize [] input

/-- `GetObjectDetails` from git_commands.go, with its implemented batch size
of 1000. -/
def getObjectDetails (bc : BatchCheck) (input : List String)
    (sizeFilter : Option (Int → Bool)) : List FileInfo :=
  getObjectDetailsWith 1000 bc input sizeFilter

/-- The partition of the input into the groups that the loop of
`GetObjectDetails` assembles (same control flow as `getObjectDetailsAux`,
recording the groups instead of processing them). -/
def chunksAux (batchSize : Nat) : List String → List String → List (List String)
  | batch, [] => if batch.isEmpty then [] else [batch]
  | batch, line :: rest =>
    let batch' := batch ++ [line]
    if batchSize ≤ batch'.length then batch' :: chunksAux batchSize [] rest
    else chunksAux batchSize batch' rest

/-- Groups of size `batchSize` (final partial group included) of a list. -/
def chunksOf (batchSize : Nat) (input : List String) : List (List String) :=
  chunksAux batchSize [] input

/-- The batches for which `processObjectBatch` actually issues a bulk query:
none when the batch is empty (`processObjectBatch` returns immediately),
otherwise the batch itself. -/
def processObjectBatchQueries (objects : List String) : List (List String) :=
  if objects.isEmpty then [] else [objects]

/-- The bulk queries issued over a whole `GetObjectDetails` run, mirroring
the grouping loop. -/
def getObjectDetailsQueriesAux (batchSize : Nat) :
    List String → List String → List (List String)
  | batch, [] => if batch.isEmpty then [] else processObjectBatchQueries batch
  | batch, line :: rest =>
    let batch' := batch ++ [line]
    if batchSize ≤ batch'.length then
      processObjectBatchQueries batch' ++
        getObjectDetailsQueriesAux batchSize [] rest
    else
      getObjectDetailsQueriesAux batchSize batch' rest

/-- Bulk queries issued by `GetObjectDetails` on a given input. -/
def getObjectDetailsQueries (input : List String) : List (List String) :=
  getObjectDetailsQueriesAux 1000 [] input

/-- A well-behaved bulk-query backend as described by the spec: the query
never fails and the response carries one line per submitted identifier. -/
def perIdBackend (respond : String → String) : BatchCheck :=
  fun objects => some (objects.map respond)

/-! ## Finite repository model for the git plumbing commands

Commits are numbered so that every parent has a smaller number than its
child (a topological numbering of the acyclic commit graph), with all
commits below `commitCount`.  `resolve` models `git rev-parse --verify`;
`refs` gives the tips of all existing references (what `--all` adds);
`commitHash` is the printed hash of a commit and `objectsOf` lists the
`(hash, path)` pairs of the tree and blob objects in the snapshot of a
commit. -/

structure Repo where
  commitCount : Nat
  parents : Nat → List Nat
  refs : List Nat
  resolve : String → Option Nat
  commitHash : Nat → String
  objectsOf : Nat → List (String × String)

/-- Commits reachable from `c` (ancestors including `c`), computed with
explicit fuel; since parents have strictly smaller numbers, fuel
`commitCount` is always enough. -/
def reachF (r : Repo) : Nat → Nat → List Nat
  | 0, c => [c]
  | fuel + 1, c => c :: ((r.parents c).map (reachF r fuel)).flatten

/-- Commits reachable from commit `c`. -/
def Repo.reach (r : Repo) (c : Nat) : List Nat :=
  reachF r r.commitCount c

/-- Commits reachable from any commit of `cs`. -/
def reachMany (r : Repo) (cs : List Nat) : List Nat :=
  (cs.map r.reach).flatten

/-- Keep each object hash only the first time it is seen, as `git rev-list
--objects` prints each object once. -/
def dedupByHash : List (String × String) → List String → List (String × String)
  | [], _ => []
  | o :: rest, seen =>
    if o.1 ∈ seen then dedupByHash rest seen
    else o :: dedupByHash rest (o.1 :: seen)

/-- The commits the walk of `git rev-list pos ^neg` emits: reachable from a
positive endpoint, not reachable from a negated one. -/
def newCommits (r : Repo) (pos neg : List Nat) : List Nat :=
  (reachMany r pos).dedup.filter fun c => c ∉ (reachMany r neg).dedup

/-- Hashes of the objects of every commit reachable from a negated endpoint:
these are marked uninteresting and never printed. -/
def negObjHashes (r : Repo) (neg : List Nat) : List String :=
  ((reachMany r neg).dedup.map r.objectsOf).flatten.map Prod.fst

/-- The tree and blob entries printed by `git rev-list --objects pos ^neg`:
objects of the emitted commits, each hash printed once, objects reachable
from the negated commits suppressed. -/
def newObjEntries (r : Repo) (pos neg : List Nat) : List (String × String) :=
  (dedupByHash (((newCommits r pos neg).map r.objectsOf).flatten) []).filter
    fun o => o.1 ∉ negObjHashes r neg

/-- Entries printed by `git rev-list --objects pos ^neg`: the commits in the
reachability difference (path component empty — a commit is printed as its
bare hash), followed by the tree and blob objects of those commits. -/
def revListEntries (r : Repo) (pos neg : List Nat) : List (String × String) :=
  (newCommits r pos neg).map (fun c => (r.commitHash c, "")) ++ newObjEntries r pos neg

/-- One output line of `git rev-list --objects`: the hash, followed by a
space and the path when the entry has one. -/
def renderEntry (o : String × String) : String :=
  if o.2 = "" then o.1 else o.1 ++ " " ++ o.2

/-- Output lines of `git rev-list --objects pos ^neg`. -/
def revListObjectLines (r : Repo) (pos neg : List Nat) : List String :=
  (revListEntries r pos neg).map renderEntry

/-- `strings.Fields(line)` truncated to the leading `parts[0]` that the
`GetObjectList` goroutine forwards: the first whitespace-delimited field,
or nothing when the line has no field. -/
def firstFields (line : String) : List String :=
  match line.data.dropWhile (fun c => c.isWhitespace) with
  | [] => []
  | c :: cs => [((c :: cs).takeWhile fun ch => !ch.isWhitespace).asString]

/-- `GetObjectList` from git_commands.go: validate the start commit, then the
end commit (each with `git rev-parse --verify`, failing fast with an error
naming the failing side before anything is streamed), then stream the lines
of `git rev-list --objects --all start..end` — positive endpoints are all
existing references plus the resolved end commit, the resolved start commit
is negated.  With `includePath` the raw line is sent; otherwise only the
first field (the hash).  The channel is modelled as the returned list; the
wrapped low-level error of the Go message is abstracted away. -/
def getObjectList (r : Repo) (startCommit endCommit : String) (includePath : Bool) :
    Except String (List String) :=
  match r.resolve startCommit with
  | none => Except.error "Invalid start commit"
  | some s =>
    match r.resolve endCommit with
    | none => Except.error "Invalid end commit"
    | some e =>
      Except.ok ((revListObjectLines r (r.refs ++ [e]) [s]).flatMap fun line =>
        if includePath then [line] else firstFields line)

/-- All object identifiers reachable from the commits of `cs`: the hashes of
the reachable commits themselves plus the hashes of every tree and blob
object in their snapshots. -/
def reachObjHashes (r : Repo) (cs : List Nat) : List String :=
  (reachMany r cs).dedup.map r.commitHash ++
    ((reachMany r cs).dedup.map r.objectsOf).flatten.map Prod.fst

/-- `git rev-list --count old..new` in the model: fails when either endpoint
does not resolve, otherwise counts the commits reachable from `new` but not
from `old`. -/
def revListCount (r : Repo) (oldRev newRev : String) : Option Nat :=
  match r.resolve oldRev, r.resolve newRev with
  | some o, some n => some (((r.reach n).dedup.filter fun c => c ∉ r.reach o).length)
  | _, _ => none

/-- `CountCommits` from git_commands.go: run
`git rev-list --count oldRev..newRev` unconditionally (there is no special
case for any sentinel value of `oldRev`) and fail when the invocation fails;
the `strconv.Atoi` of the decimal output is abstracted as the backend
returning the number itself. -/
def countCommits (r : Repo) (newRev oldRev : String) : Except String Nat :=
  match revListCount r oldRev newRev with
  | none => Except.error "Failed to execute git rev-list"
  | some n => Except.ok n

/-- The count that the claim attributes to the branch-creation special case,
following its wording: the number of commits reachable from the new revision
that are not reachable from any existing reference. -/
def claimedBranchCreationCount (r : Repo) (n : Nat) : Nat :=
  ((r.reach n).dedup.filter fun c => c ∉ (reachMany r r.refs).dedup).length

/-- The all-zero null reference used as the branch-creation sentinel. -/
def zeroRef : String := "0000000000000000000000000000000000000000"

/-- Modelled from the spec: the implementation of `VerifyCommit` is not among
the given sources — only `TestVerifyCommit` exercises it.  Per spec section
4.1 it "returns whether ref resolves to an existing commit; never raises —
unresolvable or empty input yields false".  Resolution is `Repo.resolve`,
and the function is total (it returns a `Bool`, it cannot raise). -/
def VerifyCommit (r : Repo) (ref : String) : Bool :=
  (r.resolve ref).isSome

/-- Well-formedness of a repository model: parents precede their children,
reference tips exist, distinct commits print distinct hashes, commit hashes
never collide with tree or blob hashes, and every printed hash is non-empty
and free of whitespace (git hashes are fixed-width hex strings). -/
def Repo.WF (r : Repo) : Prop :=
  (∀ c, c < r.commitCount → ∀ p ∈ r.parents c, p < c) ∧
  (∀ x ∈ r.refs, x < r.commitCount) ∧
  (∀ c, c < r.commitCount → ∀ c', c' < r.commitCount →
      r.commitHash c = r.commitHash c' → c = c') ∧
  (∀ c, c < r.commitCount → ∀ c', c' < r.commitCount →
      ∀ o ∈ r.objectsOf c', r.commitHash c ≠ o.1) ∧
  (∀ c, c < r.commitCount → r.commitHash c ≠ "" ∧
      ∀ ch ∈ (r.commitHash c).data, ch.isWhitespace = false) ∧
  (∀ c, c < r.commitCount → ∀ o ∈ r.objectsOf c, o.1 ≠ "" ∧
      ∀ ch ∈ o.1.data, ch.isWhitespace = false)

/-! ## Concrete repositories used for counterexamples and witnesses -/

/-- A repository with a root commit 0, a tip commit 1 of the master branch
and a tip commit 2 of a side branch (both children of the root, both
referenced); the root carries blob `A`, commit 1 adds blob `B` and commit 2
adds blob `C`. -/
def exRepo : Repo where
  commitCount := 3
  parents := fun n => if n = 1 then [0] else if n = 2 then [0] else []
  refs := [1, 2]
  resolve := fun s =>
    if s = "c0" then some 0 else if s = "c1" then some 1
    else if s = "c2" then some 2 else none
  commitHash := fun n => if n = 0 then "f0" else if n = 1 then "f1" else "f2"
  objectsOf := fun n =>
    if n = 0 then [("aa", "a.txt")]
    else if n = 1 then [("aa", "a.txt"), ("bb", "b.txt")]
    else if n = 2 then [("aa", "a.txt"), ("cc", "c.txt")]
    else []

/-- A repository with one referenced commit 0 and a parentless new commit 1
(a brand-new line of history about to be pushed). -/
def exRepo4 : Repo where
  commitCount := 2
  parents := fun _ => []
  refs := [0]
  resolve := fun s => if s = "m0" then some 0 else if s = "n1" then some 1 else none
  commitHash := fun n => if n = 0 then "d0" else "d1"
  objectsOf := fun _ => []

/-- The list carried by an ok result, or nothing on an error. -/
def exceptLines (e : Except String (List String)) : List String :=
  match e with
  | Except.ok l => l
  | Except.error _ => []

/-! ## Configuration: `GetSizeLimit` from cmd/internal/config/config.go -/

/-- Configuration options, from `Config` in config.go (the log configuration
plays no part in the size-limit logic); the Go map `ProjectSizeLimits` is
modelled as an association list with distinct keys, looked up by
`lookupLimit`. -/
structure Config where
  projectsWhitelist : List String
  projectSizeLimits : List (String × Int)

/-- Go map indexing `config.ProjectSizeLimits[project]` with its presence
flag collapsed into an `Option`. -/
def lookupLimit : List (String × Int) → String → Option Int
  | [], _ => none
  | (k, v) :: rest, key => if k = key then some v else lookupLimit rest key

/-- Digits-and-range part of `strconv.ParseInt(s, 10, 64)`: a non-empty
all-digit string whose signed value fits a 64-bit integer; `none` models a
non-nil error. -/
def parseInt64Digits (sign : Int) (ds : List Char) : Option Int :=
  if ds.isEmpty || !ds.all Char.isDigit then none
  else
    if -(2 ^ 63) ≤ sign * (digitsVal ds : Int) ∧ sign * (digitsVal ds : Int) ≤ 2 ^ 63 - 1 then
      some (sign * (digitsVal ds : Int))
    else none

/-- `strconv.ParseInt(s, 10, 64)`: optional leading sign, then digits. -/
def parseInt64 (s : String) : Option Int :=
  match s.data with
  | '+' :: ds => parseInt64Digits 1 ds
  | '-' :: ds => parseInt64Digits (-1) ds
  | ds => parseInt64Digits 1 ds

/-- `GetSizeLimit` from config.go: start from the 5 MiB default, replace it
by the value of the `GITHOOK_FILE_SIZE_MAX` environment variable when that
is non-empty and parses as an `int64` (`envSize` holds the variable, `""`
when unset), then return the project-specific limit instead whenever the
project has an entry in `ProjectSizeLimits` (the log print on that path has
no bearing on the result). -/
def GetSizeLimit (envSize : String) (config : Config) (project : String) : Int :=
  let sizeLimit : Int := 5 * 1024 * 1024
  let sizeLimit :=
    if envSize ≠ "" then
      match parseInt64 envSize with
      | some size => size
      | none => sizeLimit
    else sizeLimit
  match lookupLimit config.projectSizeLimits project with
  | some projectLimit => projectLimit
  | none => sizeLimit

/-- A concrete configuration with two project-specific limits. -/
def exConfig : Config :=
  { projectsWhitelist := ["p1"], projectSizeLimits := [("p1", 111), ("p2", 222)] }

/-! ## Helper lemmas about the batch detail resolver -/

theorem emitLine_eq_some {sf : Option (Int → Bool)} {line : String} {r : FileInfo}
    (h : emitLine sf line = some r) :
    parseBatchLine line = some (r.hash, r.size, "blob", r.path) ∧ r.path ≠ "" ∧
      sizeFilterHolds sf r.size = true := by
  unfold emitLine at h
  split at h
  · exact absurd h (by simp)
  · rename_i hash size ty path hp
    split at h
    · rename_i hc
      obtain ⟨h1, h2, h3⟩ := hc
      have hr := Option.some.inj h
      subst h1
      rw [← hr]
      exact ⟨hp, h2, h3⟩
    · exact absurd h (by simp)

theorem emitLine_of_parse {sf : Option (Int → Bool)} {line : String} {r : FileInfo}
    (hp : parseBatchLine line = some (r.hash, r.size, "blob", r.path))
    (hpath : r.path ≠ "") (hf : sizeFilterHolds sf r.size = true) :
    emitLine sf line = some r := by
  have hstep : emitLine sf line =
      if ("blob" : String) = "blob" ∧ r.path ≠ "" ∧ sizeFilterHolds sf r.size = true then
        some { hash := r.hash, size := r.size, path := r.path }
      else none := by
    unfold emitLine
    rw [hp]
  rw [hstep, if_pos ⟨rfl, hpath, hf⟩]

theorem mem_processObjectBatch {bc : BatchCheck} {objects : List String}
    {sf : Option (Int → Bool)} {r : FileInfo}
    (h : r ∈ processObjectBatch bc objects sf) :
    objects.isEmpty = false ∧
      ∃ lines, bc objects = some lines ∧ ∃ line ∈ lines, emitLine sf line = some r := by
  unfold processObjectBatch at h
  by_cases he : objects.isEmpty
  · rw [if_pos he] at h; exact absurd h (List.not_mem_nil r)
  · rw [if_neg he] at h
    cases hbc : bc objects with
    | none => rw [hbc] at h; exact absurd h (List.not_mem_nil r)
    | some lines =>
      rw [hbc] at h
      obtain ⟨line, hline, hemit⟩ := List.mem_filterMap.mp h
      exact ⟨Bool.eq_false_iff.mpr he, lines, rfl, line, hline, hemit⟩

theorem mem_processObjectBatch_of {bc : BatchCheck} {objects : List String}
    {sf : Option (Int → Bool)} {r : FileInfo} {lines : List String} {line : String}
    (hne : objects.isEmpty = false) (hbc : bc objects = some lines)
    (hline : line ∈ lines) (hemit : emitLine sf line = some r) :
    r ∈ processObjectBatch bc objects sf := by
  unfold processObjectBatch
  rw [if_neg (by simp [hne]), hbc]
  exact List.mem_filterMap.mpr ⟨line, hline, hemit⟩

theorem getObjectDetailsAux_eq_chunks (bc : BatchCheck) (sf : Option (Int → Bool))
    (n : Nat) :
    ∀ (rest batch : List String),
      getObjectDetailsAux bc sf n batch rest =
        ((chunksAux n batch rest).map fun g => processObjectBatch bc g sf).flatten := by
  intro rest
  induction rest with
  | nil =>
    intro batch
    by_cases h : batch.isEmpty <;> simp [getObjectDetailsAux, chunksAux, h]
  | cons line rest ih =>
    intro batch
    by_cases h : n ≤ batch.length + 1 <;>
      simp [getObjectDetailsAux, chunksAux, h, ih]

theorem getObjectDetails_eq_chunks (bc : BatchCheck) (sf : Option (Int → Bool))
    (input : List String) :
    getObjectDetails bc input sf =
      ((chunksOf 1000 input).map fun g => processObjectBatch bc g sf).flatten :=
  getObjectDetailsAux_eq_chunks bc sf 1000 input []

theorem processObjectBatch_perId (respond : String → String) (sf : Option (Int → Bool))
    (objects : List String) :
    processObjectBatch (perIdBackend respond) objects sf =
      objects.filterMap fun o => emitLine sf (respond o) := by
  cases objects with
  | nil => rfl
  | cons o os =>
    unfold processObjectBatch
    rw [if_neg (by simp)]
    simp only [perIdBackend]
    rw [List.filterMap_map]
    rfl

theorem getObjectDetailsAux_perId (respond : String → String) (sf : Option (Int → Bool))
    (n : Nat) :
    ∀ (rest batch : List String),
      getObjectDetailsAux (perIdBackend respond) sf n batch rest =
        (batch ++ rest).filterMap fun o => emitLine sf (respond o) := by
  intro rest
  induction rest with
  | nil =>
    intro batch
    cases batch with
    | nil => rfl
    | cons b bs => simp [getObjectDetailsAux, processObjectBatch_perId]
  | cons line rest ih =>
    intro batch
    by_cases h : n ≤ batch.length + 1
    · simp [getObjectDetailsAux, h, ih, processObjectBatch_perId, List.filterMap_append]
      rw [← List.filterMap_append]
      rfl
    · simp [getObjectDetailsAux, h, ih, processObjectBatch_perId, List.filterMap_append]

theorem emitLine_filter_mono {P : Int → Bool} {line : String} {r : FileInfo}
    (h : emitLine (some P) line = some r) :
    emitLine (some fun _ => true) line = some r ∧ P r.size = true := by
  obtain ⟨hp, hpath, hf⟩ := emitLine_eq_some h
  exact ⟨emitLine_of_parse hp hpath rfl, hf⟩

theorem processObjectBatch_filter_mono {bc : BatchCheck} {objects : List String}
    {P : Int → Bool} {r : FileInfo}
    (h : r ∈ processObjectBatch bc objects (some P)) :
    r ∈ processObjectBatch bc objects (some fun _ => true) ∧ P r.size = true := by
  obtain ⟨hne, lines, hbc, line, hline, hemit⟩ := mem_processObjectBatch h
  obtain ⟨hemit', hP⟩ := emitLine_filter_mono hemit
  exact ⟨mem_processObjectBatch_of hne hbc hline hemit', hP⟩

/-! ## Helper lemmas about the repository model -/

theorem reachF_lt (r : Repo)
    (hpar : ∀ c, c < r.commitCount → ∀ p ∈ r.parents c, p < c) :
    ∀ fuel c, c < r.commitCount → ∀ x ∈ reachF r fuel c, x < r.commitCount := by
  intro fuel
  induction fuel with
  | zero =>
    intro c hc x hx
    simp only [reachF, List.mem_singleton] at hx
    subst hx
    exact hc
  | succ fuel ih =>
    intro c hc x hx
    simp only [reachF, List.mem_cons, List.mem_flatten, List.mem_map] at hx
    rcases hx with rfl | ⟨l, ⟨p, hp, rfl⟩, hx⟩
    · exact hc
    · exact ih p (Nat.lt_trans (hpar c hc p hp) hc) x hx

theorem reachMany_lt (r : Repo)
    (hpar : ∀ c, c < r.commitCount → ∀ p ∈ r.parents c, p < c)
    (cs : List Nat) (hcs : ∀ c ∈ cs, c < r.commitCount) :
    ∀ x ∈ reachMany r cs, x < r.commitCount := by
  intro x hx
  simp only [reachMany, List.mem_flatten, List.mem_map] at hx
  obtain ⟨l, ⟨c, hc, rfl⟩, hx⟩ := hx
  exact reachF_lt r hpar r.commitCount c (hcs c hc) x hx

theorem dedupByHash_subset :
    ∀ (l : List (String × String)) (seen : List String) (o : String × String),
      o ∈ dedupByHash l seen → o ∈ l := by
  intro l
  induction l with
  | nil => intro seen o h; exact absurd h (List.not_mem_nil o)
  | cons a rest ih =>
    intro seen o h
    unfold dedupByHash at h
    by_cases ha : a.1 ∈ seen
    · rw [if_pos ha] at h
      exact List.mem_cons_of_mem a (ih seen o h)
    · rw [if_neg ha] at h
      rcases List.mem_cons.mp h with h' | h'
      · rw [h']; exact List.mem_cons_self a rest
      · exact List.mem_cons_of_mem a (ih _ o h')

theorem mem_dedupByHash_fst :
    ∀ (l : List (String × String)) (seen : List String) (h : String),
      (∃ o ∈ dedupByHash l seen, o.1 = h) ↔ (∃ o ∈ l, o.1 = h) ∧ h ∉ seen := by
  intro l
  induction l with
  | nil => intro seen h; simp [dedupByHash]
  | cons a rest ih =>
    intro seen h
    unfold dedupByHash
    by_cases ha : a.1 ∈ seen
    · rw [if_pos ha, ih]
      constructor
      · rintro ⟨⟨o, ho, rfl⟩, hns⟩
        exact ⟨⟨o, List.mem_cons_of_mem a ho, rfl⟩, hns⟩
      · rintro ⟨⟨o, ho, rfl⟩, hns⟩
        rcases List.mem_cons.mp ho with h' | h'
        · rw [h'] at hns
          exact absurd ha hns
        · exact ⟨⟨o, h', rfl⟩, hns⟩
    · rw [if_neg ha]
      constructor
      · rintro ⟨o, ho, hoh⟩
        rcases List.mem_cons.mp ho with h' | h'
        · subst h'
          subst hoh
          exact ⟨⟨o, List.mem_cons_self o rest, rfl⟩, ha⟩
        · obtain ⟨⟨o', ho', rfl⟩, hns⟩ := (ih (a.1 :: seen) h).mp ⟨o, h', hoh⟩
          exact ⟨⟨o', List.mem_cons_of_mem a ho', rfl⟩,
            fun hseen => hns (List.mem_cons_of_mem _ hseen)⟩
      · rintro ⟨⟨o, ho, rfl⟩, hns⟩
        by_cases hoa : o.1 = a.1
        · exact ⟨a, List.mem_cons_self a _, hoa.symm⟩
        · rcases List.mem_cons.mp ho with h' | h'
          · rw [h'] at hoa
            exact absurd rfl hoa
          · have hkey : (∃ o' ∈ rest, o'.1 = o.1) ∧ o.1 ∉ a.1 :: seen := by
              refine ⟨⟨o, h', rfl⟩, fun hmem => ?_⟩
              rcases List.mem_cons.mp hmem with hh | hh
              · exact hoa hh
              · exact hns hh
            obtain ⟨o'', ho'', ho''h⟩ := (ih (a.1 :: seen) o.1).mpr hkey
            exact ⟨o'', List.mem_cons_of_mem a ho'', ho''h⟩

theorem takeWhile_all {p : Char → Bool} :
    ∀ l : List Char, (∀ c ∈ l, p c = true) → l.takeWhile p = l := by
  intro l
  induction l with
  | nil => intro _; rfl
  | cons a rest ih =>
    intro h
    rw [List.takeWhile_cons, if_pos (h a (List.mem_cons_self a rest)),
      ih fun c hc => h c (List.mem_cons_of_mem a hc)]

theorem takeWhile_append_stop {p : Char → Bool} :
    ∀ (l₁ : List Char) (x : Char) (l₂ : List Char),
      (∀ c ∈ l₁, p c = true) → p x = false →
      (l₁ ++ x :: l₂).takeWhile p = l₁ := by
  intro l₁
  induction l₁ with
  | nil =>
    intro x l₂ _ hx
    simp [List.takeWhile_cons, hx]
  | cons a rest ih =>
    intro x l₂ h hx
    rw [List.cons_append, List.takeWhile_cons,
      if_pos (h a (List.mem_cons_self a rest)),
      ih x l₂ (fun c hc => h c (List.mem_cons_of_mem a hc)) hx]

theorem firstFields_no_ws (line h : String) (rest : List Char)
    (hdata : line.data = h.data ++ rest)
    (hne : h ≠ "") (hws : ∀ ch ∈ h.data, ch.isWhitespace = false)
    (hrest : rest = [] ∨ ∃ t, rest = ' ' :: t) :
    firstFields line = [h] := by
  obtain ⟨c, cs, hcs⟩ : ∃ c cs, h.data = c :: cs := by
    cases hh : h.data with
    | nil => exact absurd (String.ext hh) hne
    | cons c cs => exact ⟨c, cs, rfl⟩
  have hcw : c.isWhitespace = false := hws c (by rw [hcs]; exact List.mem_cons_self c cs)
  have hdrop : line.data.dropWhile (fun ch => ch.isWhitespace) = h.data ++ rest := by
    rw [hdata, hcs, List.cons_append, List.dropWhile_cons, if_neg (by simp [hcw]),
      ← List.cons_append, ← hcs]
  have htake : (h.data ++ rest).takeWhile (fun ch => !ch.isWhitespace) = h.data := by
    rcases hrest with rfl | ⟨t, rfl⟩
    · rw [List.append_nil]
      exact takeWhile_all h.data fun x hx => by simp [hws x hx]
    · exact takeWhile_append_stop h.data ' ' t (fun x hx => by simp [hws x hx]) (by decide)
  unfold firstFields
  rw [hdrop, hcs, List.cons_append]
  show [((c :: (cs ++ rest)).takeWhile fun ch => !ch.isWhitespace).asString] = [h]
  rw [← List.cons_append, ← hcs, htake]
  rfl

theorem firstFields_renderEntry (o : String × String) (hne : o.1 ≠ "")
    (hws : ∀ ch ∈ o.1.data, ch.isWhitespace = false) :
    firstFields (renderEntry o) = [o.1] := by
  unfold renderEntry
  by_cases hp : o.2 = ""
  · rw [if_pos hp]
    exact firstFields_no_ws o.1 o.1 [] (by simp) hne hws (Or.inl rfl)
  · rw [if_neg hp]
    refine firstFields_no_ws _ o.1 (' ' :: o.2.data) ?_ hne hws (Or.inr ⟨o.2.data, rfl⟩)
    rw [String.data_append, String.data_append, List.append_assoc]
    rfl

theorem flatMap_firstFields :
    ∀ l : List (String × String),
      (∀ o ∈ l, firstFields (renderEntry o) = [o.1]) →
      ((l.map renderEntry).flatMap fun line => firstFields line) = l.map Prod.fst := by
  intro l
  induction l with
  | nil => intro _; rfl
  | cons a rest ih =>
    intro h
    rw [List.map_cons, List.flatMap_cons, h a (List.mem_cons_self a rest),
      ih fun o ho => h o (List.mem_cons_of_mem a ho), List.map_cons]
    rfl

theorem newCommits_lt (r : Repo)
    (hpar : ∀ c, c < r.commitCount → ∀ p ∈ r.parents c, p < c)
    (pos neg : List Nat) (hpos : ∀ c ∈ pos, c < r.commitCount) :
    ∀ c ∈ newCommits r pos neg, c < r.commitCount := by
  intro c hc
  unfold newCommits at hc
  exact reachMany_lt r hpar pos hpos c (List.mem_dedup.mp (List.mem_filter.mp hc).1)

theorem revListEntries_format (r : Repo)
    (hpar : ∀ c, c < r.commitCount → ∀ p ∈ r.parents c, p < c)
    (hcfmt : ∀ c, c < r.commitCount → r.commitHash c ≠ "" ∧
      ∀ ch ∈ (r.commitHash c).data, ch.isWhitespace = false)
    (hofmt : ∀ c, c < r.commitCount → ∀ o ∈ r.objectsOf c, o.1 ≠ "" ∧
      ∀ ch ∈ o.1.data, ch.isWhitespace = false)
    (pos neg : List Nat) (hpos : ∀ c ∈ pos, c < r.commitCount) :
    ∀ o ∈ revListEntries r pos neg, o.1 ≠ "" ∧
      ∀ ch ∈ o.1.data, ch.isWhitespace = false := by
  intro o ho
  unfold revListEntries at ho
  rcases List.mem_append.mp ho with h | h
  · obtain ⟨c, hc, rfl⟩ := List.mem_map.mp h
    exact hcfmt c (newCommits_lt r hpar pos neg hpos c hc)
  · unfold newObjEntries at h
    have ho' := (List.mem_filter.mp h).1
    have ho'' := dedupByHash_subset _ [] o ho'
    obtain ⟨l, hl, hol⟩ := List.mem_flatten.mp ho''
    obtain ⟨c, hc, rfl⟩ := List.mem_map.mp hl
    exact hofmt c (newCommits_lt r hpar pos neg hpos c hc) o hol

theorem getObjectList_ok (r : Repo) {startC endC : String} {s e : Nat}
    (hs : r.resolve startC = some s) (he : r.resolve endC = some e) (ip : Bool) :
    getObjectList r startC endC ip =
      Except.ok ((revListObjectLines r (r.refs ++ [e]) [s]).flatMap fun line =>
        if ip then [line] else firstFields line) := by
  unfold getObjectList
  rw [hs, he]

theorem mem_map_fst_revListEntries (r : Repo) (pos neg : List Nat) (hsh : String) :
    hsh ∈ (revListEntries r pos neg).map Prod.fst ↔
      ((∃ c ∈ newCommits r pos neg, r.commitHash c = hsh) ∨
        ∃ o ∈ newObjEntries r pos neg, o.1 = hsh) := by
  unfold revListEntries
  rw [List.map_append, List.mem_append]
  constructor
  · rintro (h | h)
    · obtain ⟨o, ho, rfl⟩ := List.mem_map.mp h
      obtain ⟨c, hc, rfl⟩ := List.mem_map.mp ho
      exact Or.inl ⟨c, hc, rfl⟩
    · obtain ⟨o, ho, rfl⟩ := List.mem_map.mp h
      exact Or.inr ⟨o, ho, rfl⟩
  · rintro (⟨c, hc, rfl⟩ | ⟨o, ho, rfl⟩)
    · exact Or.inl (List.mem_map.mpr
        ⟨(r.commitHash c, ""), List.mem_map.mpr ⟨c, hc, rfl⟩, rfl⟩)
    · exact Or.inr (List.mem_map.mpr ⟨o, ho, rfl⟩)

theorem mem_reachObjHashes (r : Repo) (cs : List Nat) (hsh : String) :
    hsh ∈ reachObjHashes r cs ↔
      ((∃ c ∈ (reachMany r cs).dedup, r.commitHash c = hsh) ∨
        ∃ c ∈ (reachMany r cs).dedup, ∃ o ∈ r.objectsOf c, o.1 = hsh) := by
  unfold reachObjHashes
  rw [List.mem_append]
  constructor
  · rintro (h | h)
    · obtain ⟨c, hc, rfl⟩ := List.mem_map.mp h
      exact Or.inl ⟨c, hc, rfl⟩
    · obtain ⟨o, ho, rfl⟩ := List.mem_map.mp h
      obtain ⟨l, hl, hol⟩ := List.mem_flatten.mp ho
      obtain ⟨c, hc, rfl⟩ := List.mem_map.mp hl
      exact Or.inr ⟨c, hc, o, hol, rfl⟩
  · rintro (⟨c, hc, rfl⟩ | ⟨c, hc, o, hol, rfl⟩)
    · exact Or.inl (List.mem_map.mpr ⟨c, hc, rfl⟩)
    · exact Or.inr (List.mem_map.mpr
        ⟨o, List.mem_flatten.mpr ⟨r.objectsOf c, List.mem_map.mpr ⟨c, hc, rfl⟩, hol⟩, rfl⟩)

theorem mem_negObjHashes (r : Repo) (neg : List Nat) (hsh : String) :
    hsh ∈ negObjHashes r neg ↔
      ∃ c ∈ (reachMany r neg).dedup, ∃ o ∈ r.objectsOf c, o.1 = hsh := by
  unfold negObjHashes
  constructor
  · intro h
    obtain ⟨o, ho, rfl⟩ := List.mem_map.mp h
    obtain ⟨l, hl, hol⟩ := List.mem_flatten.mp ho
    obtain ⟨c, hc, rfl⟩ := List.mem_map.mp hl
    exact ⟨c, hc, o, hol, rfl⟩
  · rintro ⟨c, hc, o, hol, rfl⟩
    exact List.mem_map.mpr
      ⟨o, List.mem_flatten.mpr ⟨r.objectsOf c, List.mem_map.mpr ⟨c, hc, rfl⟩, hol⟩, rfl⟩

theorem mem_newCommits (r : Repo) (pos neg : List Nat) (c : Nat) :
    c ∈ newCommits r pos neg ↔
      c ∈ (reachMany r pos).dedup ∧ c ∉ (reachMany r neg).dedup := by
  unfold newCommits
  rw [List.mem_filter]
  constructor
  · rintro ⟨h1, h2⟩
    exact ⟨h1, of_decide_eq_true h2⟩
  · rintro ⟨h1, h2⟩
    exact ⟨h1, decide_eq_true h2⟩

theorem mem_newObjEntries_fst (r : Repo) (pos neg : List Nat) (hsh : String) :
    (∃ o ∈ newObjEntries r pos neg, o.1 = hsh) ↔
      ((∃ c ∈ newCommits r pos neg, ∃ o ∈ r.objectsOf c, o.1 = hsh) ∧
        hsh ∉ negObjHashes r neg) := by
  unfold newObjEntries
  constructor
  · rintro ⟨o, ho, rfl⟩
    obtain ⟨hdedup, hflt⟩ := List.mem_filter.mp ho
    have hnn : o.1 ∉ negObjHashes r neg := of_decide_eq_true hflt
    have hcand := dedupByHash_subset _ [] o hdedup
    obtain ⟨l, hl, hol⟩ := List.mem_flatten.mp hcand
    obtain ⟨c, hc, rfl⟩ := List.mem_map.mp hl
    exact ⟨⟨c, hc, o, hol, rfl⟩, hnn⟩
  · rintro ⟨⟨c, hc, o, hol, rfl⟩, hnn⟩
    have hcand : ∃ o' ∈ ((newCommits r pos neg).map r.objectsOf).flatten, o'.1 = o.1 :=
      ⟨o, List.mem_flatten.mpr ⟨r.objectsOf c, List.mem_map.mpr ⟨c, hc, rfl⟩, hol⟩, rfl⟩
    obtain ⟨o', ho', ho'h⟩ := (mem_dedupByHash_fst _ [] o.1).mpr
      ⟨hcand, List.not_mem_nil o.1⟩
    exact ⟨o', List.mem_filter.mpr ⟨ho', decide_eq_true (ho'h ▸ hnn)⟩, ho'h⟩

/-! ## Claim theorems for the batch detail resolver -/

/-- C2: every record emitted by the batch detail resolver comes from a bulk
query response line whose reported object type is "blob", carries a non-empty
path, and satisfies the size filter whenever one is supplied; this holds for
each `processObjectBatch` call and for a whole `GetObjectDetails` run. -/
theorem detailResolver_blob_invariant (bc : BatchCheck) (sf : Option (Int → Bool)) :
    (∀ objects r, r ∈ processObjectBatch bc objects sf →
      (∃ lines, bc objects = some lines ∧ ∃ line ∈ lines,
          parseBatchLine line = some (r.hash, r.size, "blob", r.path)) ∧
        r.path ≠ "" ∧ ∀ P, sf = some P → P r.size = true) ∧
    (∀ input r, r ∈ getObjectDetails bc input sf →
      r.path ≠ "" ∧ (∀ P, sf = some P → P r.size = true) ∧
      ∃ objects lines line, bc objects = some lines ∧ line ∈ lines ∧
        parseBatchLine line = some (r.hash, r.size, "blob", r.path)) := by
  have hbatch : ∀ objects r, r ∈ processObjectBatch bc objects sf →
      (∃ lines, bc objects = some lines ∧ ∃ line ∈ lines,
          parseBatchLine line = some (r.hash, r.size, "blob", r.path)) ∧
        r.path ≠ "" ∧ ∀ P, sf = some P → P r.size = true := by
    intro objects r h
    obtain ⟨-, lines, hbc, line, hline, hemit⟩ := mem_processObjectBatch h
    obtain ⟨hparse, hpath, hfilt⟩ := emitLine_eq_some hemit
    refine ⟨⟨lines, hbc, line, hline, hparse⟩, hpath, ?_⟩
    intro P hP
    rw [hP] at hfilt
    exact hfilt
  refine ⟨hbatch, ?_⟩
  intro input r h
  rw [getObjectDetails_eq_chunks] at h
  obtain ⟨l, hl, hr⟩ := List.mem_flatten.mp h
  obtain ⟨g, hg, rfl⟩ := List.mem_map.mp hl
  obtain ⟨⟨lines, hbc, line, hline, hparse⟩, hpath, hfilt⟩ := hbatch g r hr
  exact ⟨hpath, hfilt, g, lines, line, hbc, hline, hparse⟩

/-- Witness for the C2 theorem at a concrete backend, batch, filter and
record. -/
theorem detailResolver_blob_invariant_witness :
    (⟨"aa", 5, "x"⟩ : FileInfo) ∈
        processObjectBatch (fun _ => some ["aa 5 blob x"]) ["aa"]
          (some fun s => decide (s < 10)) ∧
      (⟨"aa", 5, "x"⟩ : FileInfo).path ≠ "" :=
  ⟨by decide,
   ((detailResolver_blob_invariant (fun _ => some ["aa 5 blob x"])
      (some fun s => decide (s < 10))).1 ["aa"] _ (by decide)).2.1⟩

/-- C3: a failed bulk query silently drops the whole group while the run is
just the concatenation of the per-group results (so later groups are still
processed and no error is surfaced), and a response line that does not match
the batch-check pattern is silently discarded. -/
theorem batch_failures_silent :
    (∀ (bc : BatchCheck) objects sf, bc objects = none →
        processObjectBatch bc objects sf = []) ∧
    (∀ (bc : BatchCheck) sf input, getObjectDetails bc input sf =
        ((chunksOf 1000 input).map fun g => processObjectBatch bc g sf).flatten) ∧
    (∀ (bc : BatchCheck) objects sf lines pre bad post, objects ≠ [] →
        bc objects = some lines → lines = pre ++ bad :: post →
        parseBatchLine bad = none →
        processObjectBatch bc objects sf = (pre ++ post).filterMap (emitLine sf)) := by
  refine ⟨?_, ?_, ?_⟩
  · intro bc objects sf h
    unfold processObjectBatch
    cases objects <;> simp [h]
  · intro bc sf input
    exact getObjectDetails_eq_chunks bc sf input
  · intro bc objects sf lines pre bad post hne hbc hlines hbad
    subst hlines
    unfold processObjectBatch
    rw [if_neg (by simp [hne]), hbc]
    have hbademit : emitLine sf bad = none := by
      unfold emitLine
      rw [hbad]
    simp [List.filterMap_append, hbademit]

/-- Witness for the C3 theorem: a failing backend yields no records, and a
malformed middle line is dropped from a successful response. -/
theorem batch_failures_silent_witness :
    processObjectBatch (fun _ => none) ["aa"] none = [] ∧
      processObjectBatch (fun _ => some ["aa 5 blob x", "garbage", "bb 6 blob y"])
          ["aa"] none =
        (["aa 5 blob x"] ++ ["bb 6 blob y"]).filterMap (emitLine none) :=
  ⟨batch_failures_silent.1 (fun _ => none) ["aa"] none rfl,
   batch_failures_silent.2.2 (fun _ => some ["aa 5 blob x", "garbage", "bb 6 blob y"])
     ["aa"] none _ ["aa 5 blob x"] "garbage" ["bb 6 blob y"]
     (by decide) rfl rfl (by decide)⟩

/-- C6: for any size predicate the record list produced by the detail
resolver is a sublist, member for member, of the one produced with the
always-true predicate, and every produced record satisfies the predicate on
its size. -/
theorem sizeFilter_refines (bc : BatchCheck) (P : Int → Bool) (input : List String) :
    getObjectDetails bc input (some P) ⊆
        getObjectDetails bc input (some fun _ => true) ∧
      ∀ r ∈ getObjectDetails bc input (some P), P r.size = true := by
  have key : ∀ r ∈ getObjectDetails bc input (some P),
      r ∈ getObjectDetails bc input (some fun _ => true) ∧ P r.size = true := by
    intro r h
    rw [getObjectDetails_eq_chunks] at h ⊢
    obtain ⟨l, hl, hr⟩ := List.mem_flatten.mp h
    obtain ⟨g, hg, rfl⟩ := List.mem_map.mp hl
    obtain ⟨hmem, hP⟩ := processObjectBatch_filter_mono hr
    refine ⟨List.mem_flatten.mpr ⟨processObjectBatch bc g (some fun _ => true), ?_, hmem⟩, hP⟩
    exact List.mem_map.mpr ⟨g, hg, rfl⟩
  exact ⟨fun r h => (key r h).1, fun r h => (key r h).2⟩

/-- Witness for the C6 theorem at a concrete backend, input and predicate. -/
theorem sizeFilter_refines_witness :
    (⟨"aa", 5, "x"⟩ : FileInfo) ∈
        getObjectDetails (fun _ => some ["aa 5 blob x"]) ["aa"] (some fun _ => true) ∧
      (fun s : Int => decide (s < 10)) (⟨"aa", 5, "x"⟩ : FileInfo).size = true :=
  ⟨(sizeFilter_refines (fun _ => some ["aa 5 blob x"]) (fun s => decide (s < 10))
      ["aa"]).1 (by decide),
   (sizeFilter_refines (fun _ => some ["aa 5 blob x"]) (fun s => decide (s < 10))
      ["aa"]).2 _ (by decide)⟩

/-- C7: against a well-behaved bulk-query backend (one response line per
identifier, never failing), grouping the input into batches of size 1 and
into batches of size 1000 (the implemented size, final partial batch flushed)
produce the same records — even in the same order. -/
theorem grouping_transparent (respond : String → String) (sf : Option (Int → Bool))
    (input : List String) :
    getObjectDetailsWith 1 (perIdBackend respond) input sf =
      getObjectDetails (perIdBackend respond) input sf := by
  unfold getObjectDetails getObjectDetailsWith
  rw [getObjectDetailsAux_perId, getObjectDetailsAux_perId]

/-- C10: on the empty input sequence `GetObjectDetails` produces no records
and issues no bulk query, and `processObjectBatch` on an empty batch returns
immediately without querying. -/
theorem empty_input_no_query (bc : BatchCheck) (sf : Option (Int → Bool)) :
    getObjectDetails bc [] sf = [] ∧ getObjectDetailsQueries [] = [] ∧
      processObjectBatch bc [] sf = [] ∧ processObjectBatchQueries [] = [] :=
  ⟨rfl, rfl, rfl, rfl⟩

/-! ## Claim theorems for the git commands -/

/-- C1 (amended): because the listing command passes `--all`, span
enumeration emits exactly the identifiers reachable from the end commit or
from any existing reference but not reachable from the start commit; in
particular no identifier reachable from the start commit ever appears. -/
theorem getObjectList_span_semantics (r : Repo) (startC endC : String) (s e : Nat)
    (hwf : r.WF) (hs : r.resolve startC = some s) (he : r.resolve endC = some e)
    (hsB : s < r.commitCount) (heB : e < r.commitCount) :
    getObjectList r startC endC false =
      Except.ok ((revListEntries r (r.refs ++ [e]) [s]).map Prod.fst) ∧
    ∀ hsh, (hsh ∈ (revListEntries r (r.refs ++ [e]) [s]).map Prod.fst ↔
      (hsh ∈ reachObjHashes r (r.refs ++ [e]) ∧ hsh ∉ reachObjHashes r [s])) := by
  obtain ⟨hpar, hrefs, hinj, hcross, hcfmt, hofmt⟩ := hwf
  have hposB : ∀ c ∈ r.refs ++ [e], c < r.commitCount := by
    intro c hc
    rcases List.mem_append.mp hc with h | h
    · exact hrefs c h
    · rw [List.mem_singleton.mp h]; exact heB
  have hnegB : ∀ c ∈ [s], c < r.commitCount := by
    intro c hc
    rw [List.mem_singleton.mp hc]; exact hsB
  have hposC : ∀ c ∈ (reachMany r (r.refs ++ [e])).dedup, c < r.commitCount :=
    fun c hc => reachMany_lt r hpar _ hposB c (List.mem_dedup.mp hc)
  have hnegC : ∀ c ∈ (reachMany r [s]).dedup, c < r.commitCount :=
    fun c hc => reachMany_lt r hpar _ hnegB c (List.mem_dedup.mp hc)
  constructor
  · rw [getObjectList_ok r hs he false]
    have hfun : (fun line : String => if (false : Bool) = true then [line]
        else firstFields line) = fun line => firstFields line := by
      funext line
      rw [if_neg (by simp)]
    show Except.ok ((revListObjectLines r (r.refs ++ [e]) [s]).flatMap fun line =>
      if (false : Bool) = true then [line] else firstFields line) = _
    rw [hfun]
    unfold revListObjectLines
    rw [flatMap_firstFields _ fun o ho => firstFields_renderEntry o
      ((revListEntries_format r hpar hcfmt hofmt _ [s] hposB o ho).1)
      ((revListEntries_format r hpar hcfmt hofmt _ [s] hposB o ho).2)]
  · intro hsh
    rw [mem_map_fst_revListEntries, mem_reachObjHashes, mem_reachObjHashes]
    constructor
    · rintro (⟨c, hcm, rfl⟩ | hobj)
      · obtain ⟨hcp, hcn⟩ := (mem_newCommits r _ _ c).mp hcm
        have hcB : c < r.commitCount := hposC c hcp
        refine ⟨Or.inl ⟨c, hcp, rfl⟩, ?_⟩
        rintro (⟨c', hc', heq⟩ | ⟨c', hc', o, hol, heq⟩)
        · exact hcn (hinj c' (hnegC c' hc') c hcB heq ▸ hc')
        · exact hcross c hcB c' (hnegC c' hc') o hol heq.symm
      · obtain ⟨⟨c, hcm, o, hol, rfl⟩, hnn⟩ :=
          (mem_newObjEntries_fst r _ _ hsh).mp hobj
        obtain ⟨hcp, hcn⟩ := (mem_newCommits r _ _ c).mp hcm
        have hcB : c < r.commitCount := hposC c hcp
        refine ⟨Or.inr ⟨c, hcp, o, hol, rfl⟩, ?_⟩
        rintro (⟨c', hc', heq⟩ | ⟨c', hc', o', hol', heq⟩)
        · exact hcross c' (hnegC c' hc') c hcB o hol heq
        · exact hnn ((mem_negObjHashes r [s] o.1).mpr ⟨c', hc', o', hol', heq⟩)
    · rintro ⟨(⟨c, hcp, rfl⟩ | ⟨c, hcp, o, hol, rfl⟩), hns⟩
      · have hcn : c ∉ (reachMany r [s]).dedup := fun hc =>
          hns (Or.inl ⟨c, hc, rfl⟩)
        exact Or.inl ⟨c, (mem_newCommits r _ _ c).mpr ⟨hcp, hcn⟩, rfl⟩
      · have hcn : c ∉ (reachMany r [s]).dedup := fun hc =>
          hns (Or.inr ⟨c, hc, o, hol, rfl⟩)
        have hnn : o.1 ∉ negObjHashes r [s] := fun hmem => by
          obtain ⟨c', hc', o', hol', heq⟩ := (mem_negObjHashes r [s] o.1).mp hmem
          exact hns (Or.inr ⟨c', hc', o', hol', heq⟩)
        exact Or.inr ((mem_newObjEntries_fst r _ _ o.1).mpr
          ⟨⟨c, (mem_newCommits r _ _ c).mpr ⟨hcp, hcn⟩, o, hol, rfl⟩, hnn⟩)

/-- Witness for the C1 theorem at the concrete repository exRepo (span
c0..c1, instantiated at the hash of blob bb). -/
theorem getObjectList_span_semantics_witness :
    getObjectList exRepo "c0" "c1" false =
      Except.ok ((revListEntries exRepo (exRepo.refs ++ [1]) [0]).map Prod.fst) ∧
    ("bb" ∈ (revListEntries exRepo (exRepo.refs ++ [1]) [0]).map Prod.fst ↔
      "bb" ∈ reachObjHashes exRepo (exRepo.refs ++ [1]) ∧
        "bb" ∉ reachObjHashes exRepo [0]) :=
  ⟨(getObjectList_span_semantics exRepo "c0" "c1" 0 1 (by unfold Repo.WF; decide)
      (by decide) (by decide) (by decide) (by decide)).1,
   (getObjectList_span_semantics exRepo "c0" "c1" 0 1 (by unfold Repo.WF; decide)
      (by decide) (by decide) (by decide) (by decide)).2 "bb"⟩

/-- C1 counterexample: in exRepo the span enumeration for c0..c1 also emits
blob cc, which lives only on the side branch and is not reachable from the
end commit c1 — the output is not the reachability difference of end minus
start that the claim states. -/
theorem getObjectList_not_span_difference :
    "cc" ∈ exceptLines (getObjectList exRepo "c0" "c1" false) ∧
    "cc" ∉ reachObjHashes exRepo [1] := by decide

/-- C4 (amended): CountCommits always runs rev-list over oldRev..newRev;
with both revisions resolving it returns the reachability-difference count,
and when either side fails to resolve (in particular the all-zero null
reference, which never resolves to an object) the invocation fails and an
error is returned — there is no branch-creation special case. -/
theorem countCommits_semantics (r : Repo) (newRev oldRev : String) :
    (∀ o n, r.resolve oldRev = some o → r.resolve newRev = some n →
      countCommits r newRev oldRev =
        Except.ok (((r.reach n).dedup.filter fun c => c ∉ r.reach o).length)) ∧
    (r.resolve oldRev = none →
      countCommits r newRev oldRev = Except.error "Failed to execute git rev-list") ∧
    (r.resolve newRev = none →
      countCommits r newRev oldRev = Except.error "Failed to execute git rev-list") := by
  refine ⟨?_, ?_, ?_⟩
  · intro o n ho hn
    unfold countCommits revListCount
    rw [ho, hn]
  · intro ho
    unfold countCommits revListCount
    rw [ho]
  · intro hn
    unfold countCommits revListCount
    rw [hn]
    cases r.resolve oldRev <;> rfl

/-- Witness for the C4 theorem: a resolvable span counts commits, the
null-reference span errors out. -/
theorem countCommits_semantics_witness :
    countCommits exRepo4 "n1" "m0" = Except.ok 1 ∧
    countCommits exRepo4 "n1" zeroRef = Except.error "Failed to execute git rev-list" :=
  ⟨((countCommits_semantics exRepo4 "n1" "m0").1 0 1 (by decide) (by decide)).trans
      (congrArg Except.ok (by decide)),
   (countCommits_semantics exRepo4 "n1" zeroRef).2.1 (by decide)⟩

/-- C4 counterexample: for the all-zero old reference CountCommits returns
an error, while the claim demands the number of commits reachable from n1
but from no existing reference (which is 1 in exRepo4). -/
theorem countCommits_nullref_counterexample :
    countCommits exRepo4 "n1" zeroRef = Except.error "Failed to execute git rev-list" ∧
    exRepo4.resolve zeroRef = none ∧
    exRepo4.resolve "n1" = some 1 ∧
    claimedBranchCreationCount exRepo4 1 = 1 :=
  ⟨rfl, by decide, by decide, by decide⟩

/-- C5: span enumeration validates both endpoints before anything is
streamed; an unresolvable start yields the start-naming error, an
unresolvable end (with a fine start) yields the end-naming error, and an
object list is produced exactly when both sides resolve. -/
theorem getObjectList_validation (r : Repo) (startC endC : String) (ip : Bool) :
    (r.resolve startC = none →
      getObjectList r startC endC ip = Except.error "Invalid start commit") ∧
    (∀ s, r.resolve startC = some s → r.resolve endC = none →
      getObjectList r startC endC ip = Except.error "Invalid end commit") ∧
    ((∃ lines, getObjectList r startC endC ip = Except.ok lines) ↔
      (∃ s, r.resolve startC = some s) ∧ ∃ e, r.resolve endC = some e) := by
  have h1 : r.resolve startC = none →
      getObjectList r startC endC ip = Except.error "Invalid start commit" := by
    intro h
    unfold getObjectList
    rw [h]
  have h2 : ∀ s, r.resolve startC = some s → r.resolve endC = none →
      getObjectList r startC endC ip = Except.error "Invalid end commit" := by
    intro s hs hend
    unfold getObjectList
    rw [hs, hend]
  refine ⟨h1, h2, ?_, ?_⟩
  · rintro ⟨lines, hl⟩
    cases hs : r.resolve startC with
    | none =>
      rw [h1 hs] at hl
      exact absurd hl (by simp)
    | some s =>
      cases hend : r.resolve endC with
      | none =>
        rw [h2 s hs hend] at hl
        exact absurd hl (by simp)
      | some e => exact ⟨⟨s, rfl⟩, ⟨e, rfl⟩⟩
  · rintro ⟨⟨s, hs⟩, ⟨e, hend⟩⟩
    exact ⟨_, getObjectList_ok r hs hend ip⟩

/-- Witness for the C5 theorem: concrete invalid start and invalid end. -/
theorem getObjectList_validation_witness :
    getObjectList exRepo "bad" "c1" true = Except.error "Invalid start commit" ∧
    getObjectList exRepo "c0" "bad" true = Except.error "Invalid end commit" :=
  ⟨(getObjectList_validation exRepo "bad" "c1" true).1 (by decide),
   (getObjectList_validation exRepo "c0" "bad" true).2.1 0 (by decide) (by decide)⟩

/-- C8 (spec-modelled): VerifyCommit returns true exactly when the reference
resolves to an existing commit; it is a total boolean function (it cannot
raise), false on the empty string and on any unresolvable hex string, true
on a known commit. -/
theorem verifyCommit_semantics (r : Repo) :
    (∀ ref, VerifyCommit r ref = true ↔ ∃ c, r.resolve ref = some c) ∧
    (r.resolve "" = none → VerifyCommit r "" = false) ∧
    (∀ href, r.resolve href = none → VerifyCommit r href = false) ∧
    (∀ cref k, r.resolve cref = some k → VerifyCommit r cref = true) := by
  refine ⟨?_, ?_, ?_, ?_⟩
  · intro ref
    unfold VerifyCommit
    simp [Option.isSome_iff_exists]
  · intro h
    unfold VerifyCommit
    rw [h]
    rfl
  · intro href h
    unfold VerifyCommit
    rw [h]
    rfl
  · intro cref k h
    unfold VerifyCommit
    rw [h]
    rfl

/-- Witness for the C8 theorem: the empty string and an unknown 40-hex
string are rejected, a known commit is accepted. -/
theorem verifyCommit_semantics_witness :
    VerifyCommit exRepo "" = false ∧
    VerifyCommit exRepo "aaaaaaaaaaaaaaaaaaaaaaaaaaaaaaaaaaaaaaaa" = false ∧
    VerifyCommit exRepo "c1" = true :=
  ⟨(verifyCommit_semantics exRepo).2.1 (by decide),
   (verifyCommit_semantics exRepo).2.2.1 _ (by decide),
   (verifyCommit_semantics exRepo).2.2.2 "c1" 1 (by decide)⟩

/-- C9: a project with an entry in ProjectSizeLimits always gets that limit,
whatever the environment variable holds; otherwise a non-empty parseable
GITHOOK_FILE_SIZE_MAX supplies the limit, and in every remaining case the
default of 5242880 bytes (5 MiB) is returned. -/
theorem getSizeLimit_semantics (envSize : String) (config : Config) (project : String) :
    (∀ v, lookupLimit config.projectSizeLimits project = some v →
      GetSizeLimit envSize config project = v) ∧
    (lookupLimit config.projectSizeLimits project = none → envSize ≠ "" →
      ∀ k, parseInt64 envSize = some k → GetSizeLimit envSize config project = k) ∧
    (lookupLimit config.projectSizeLimits project = none →
      envSize = "" ∨ parseInt64 envSize = none →
      GetSizeLimit envSize config project = 5242880) := by
  refine ⟨?_, ?_, ?_⟩
  · intro v hv
    unfold GetSizeLimit
    rw [hv]
  · intro hnone hne k hk
    have hbase : GetSizeLimit envSize config project =
        if envSize ≠ "" then
          match parseInt64 envSize with
          | some size => size
          | none => 5 * 1024 * 1024
        else 5 * 1024 * 1024 := by
      unfold GetSizeLimit
      rw [hnone]
    rw [hbase, if_pos hne, hk]
  · intro hnone hdef
    have hbase : GetSizeLimit envSize config project =
        if envSize ≠ "" then
          match parseInt64 envSize with
          | some size => size
          | none => 5 * 1024 * 1024
        else 5 * 1024 * 1024 := by
      unfold GetSizeLimit
      rw [hnone]
    rw [hbase]
    rcases hdef with h | h
    · rw [if_neg (by simp [h])]
      decide
    · by_cases he : envSize ≠ ""
      · rw [if_pos he, h]
        decide
      · rw [if_neg he]
        decide

/-- Witness for the C9 theorem: project entry wins over the environment, the
environment wins over the default, the default covers the unset and the
unparseable environment. -/
theorem getSizeLimit_semantics_witness :
    GetSizeLimit "999" exConfig "p2" = 222 ∧
    GetSizeLimit "999" exConfig "p9" = 999 ∧
    GetSizeLimit "" exConfig "p9" = 5242880 ∧
    GetSizeLimit "bogus" exConfig "p9" = 5242880 :=
  ⟨(getSizeLimit_semantics "999" exConfig "p2").1 222 (by decide),
   (getSizeLimit_semantics "999" exConfig "p9").2.1 (by decide) (by decide) 999 (by decide),
   (getSizeLimit_semantics "" exConfig "p9").2.2 (by decide) (Or.inl rfl),
   (getSizeLimit_semantics "bogus" exConfig "p9").2.2 (by decide) (Or.inr (by decide))⟩

end Githookkit
